import Mathlib

/-!
Shallow embedding of `archive_bot.py` (PowerpediaInterns/archive_bot).

Page text is modelled as `List Char`.  The Python `re` operations the bot
uses are embedded by small executable functions whose behaviour on the
pattern shapes the bot actually builds coincides with Python's `re`:

* `re.findall(r"\{{2}.*\}{2}", text)` — `.` does not match a newline, so
  every match lies inside one line; within a line the greedy `.*` makes the
  single possible match run from the line's first `"{{"` to the line's last
  `"}}"` (and a line has at most one such non-overlapping match).  This is
  `findTemplates` below, built from `splitLines` and `lineMatch`.
* `re.search(r"\{{2}\s*NAME\s*\|", t)` / the same pattern under `re.sub`:
  the names the bot passes ("Archive recommendation", "Archived") start
  with a non-whitespace character and contain no regex metacharacters, so
  the `\s*` runs are forced to be maximal-munch and matching is literal;
  `frontLen`, `searchFront`, `subFrontAux` below.
* `re.sub("\}{2}", "", t)` — remove every (leftmost, non-overlapping)
  `"}}"`; `subBraces` below.
-/

def isWS (c : Char) : Bool :=
  c = ' ' ∨ c = '\t' ∨ c = '\n' ∨ c = '\r' ∨ c = '\x0b' ∨ c = '\x0c'

/-- Split on newline characters, as Python's `.`-excludes-newline regex
semantics induces.  `splitLines []` is `[[]]`, matching `"".split("\n")`. -/
def splitLines : List Char → List (List Char)
  | [] => [[]]
  | c :: r =>
    let ls := splitLines r
    if c = '\n' then [] :: ls
    else
      match ls with
      | [] => [[c]]
      | l :: ls' => (c :: l) :: ls'

def joinLines : List (List Char) → List Char
  | [] => []
  | [l] => l
  | l :: ls => l ++ '\n' :: joinLines ls

/-- The suffix of `s` starting at the first `"{{"` occurrence. -/
def firstOpenSuffix : List Char → Option (List Char)
  | [] => none
  | c :: r =>
    if c = '\x7b' ∧ r.head? = some '\x7b' then some (c :: r) else firstOpenSuffix r

/-- The prefix of `s` that ends right after the last `"}}"` occurrence. -/
def dropAfterLastClose : List Char → Option (List Char)
  | [] => none
  | c :: r =>
    match dropAfterLastClose r with
    | some t => some (c :: t)
    | none => if c = '\x7d' ∧ r.head? = some '\x7d' then some [c, '\x7d'] else none

/-- The unique match of `re` pattern `\{{2}.*\}{2}` inside one
newline-free line: from the line's first `"{{"` through its last `"}}"`
(inside the suffix that starts at `"{{"`, any `"}}"` necessarily begins at
offset at least two, so the regex's `i + 2 ≤ j` side condition is
automatic). -/
def lineMatch (s : List Char) : Option (List Char) :=
  (firstOpenSuffix s).bind dropAfterLastClose

/-- `re.findall(r"\{{2}.*\}{2}", text)`, in document order. -/
def findTemplates (text : List Char) : List (List Char) :=
  (splitLines text).filterMap lineMatch

/-- Length of the match of `\{{2}\s*NAME\s*\|` at the head of `s`
(`none` if it does not match there).  Exact for the names the bot uses:
first character of the name non-whitespace, no metacharacters. -/
def frontLen (name : List Char) (s : List Char) : Option Nat :=
  match s with
  | '\x7b' :: '\x7b' :: r =>
    let w1 := (r.takeWhile isWS).length
    let r1 := r.drop w1
    if name.isPrefixOf r1 then
      let r2 := r1.drop name.length
      let w2 := (r2.takeWhile isWS).length
      match r2.drop w2 with
      | '|' :: _ => some (2 + w1 + name.length + w2 + 1)
      | _ => none
    else none
  | _ => none

/-- `re.search(r"\{{2}\s*NAME\s*\|", s)` as a Bool. -/
def searchFront (name : List Char) : List Char → Bool
  | [] => false
  | c :: r => (frontLen name (c :: r)).isSome || searchFront name r

/-- One pass of `re.sub(r"\{{2}\s*NAME\s*\|", "", s)`: delete every
leftmost non-overlapping match.  Fuel is the input length; every match
consumes at least three characters, so `fuel = s.length` never runs out. -/
def subFrontAux (name : List Char) : Nat → List Char → List Char
  | 0, s => s
  | _ + 1, [] => []
  | fuel + 1, c :: r =>
    match frontLen name (c :: r) with
    | some k => subFrontAux name fuel ((c :: r).drop k)
    | none => c :: subFrontAux name fuel r

def subFront (name s : List Char) : List Char :=
  subFrontAux name s.length s

/-- `re.sub("\}{2}", "", s)`: delete every leftmost non-overlapping `"}}"`. -/
def subBraces : List Char → List Char
  | [] => []
  | [c] => [c]
  | c :: d :: r =>
    if c = '\x7d' ∧ d = '\x7d' then subBraces r
    else c :: subBraces (d :: r)

/-- `grab_template_info` (src/archive_bot.py:143): strip every
`{{NAME|` prefix occurrence, then every `}}`. -/
def grab_template_info (template_name template : List Char) : List Char :=
  subBraces (subFront template_name template)

/-- `grab_template_data` (src/archive_bot.py:155). -/
def grab_template_data (template_name text : List Char) : List (List Char) :=
  (findTemplates text).filterMap fun t =>
    if searchFront template_name t then some (grab_template_info template_name t) else none

/-- `parse_template` (src/archive_bot.py:168): like `grab_template_data`
but keeps the whole matched template text. -/
def parse_template (template_name text : List Char) : List (List Char) :=
  (findTemplates text).filter (searchFront template_name)

def archiveRecName : List Char := "Archive recommendation".toList

/-!
Dates.  `parse_date` (src/archive_bot.py:182) strips the characters
`d a t e =` from both ends of the fragment (Python `str.strip('date=')`)
and feeds the rest to `dateutil.parser.parse`.  The external `dateutil`
parser is embedded on the grammar the bot reads and writes — the spec's
marker grammar `"Month Day, Year"` (full or three-letter month name,
case-insensitive, day validated against the month) — and anything outside
that grammar is unparsable; in Python an unparsable string makes
`parser.parse` raise, which nothing in the bot catches.  A parsed calendar
date is returned as its proleptic-Gregorian day number (`gday`), and
instants (`datetime.now()`) are modelled as minutes, `1440` per day, a
parsed date sitting at its midnight. -/

def pyStrip (cs : List Char) (s : List Char) : List Char :=
  ((s.dropWhile (cs.contains ·)).reverse.dropWhile (cs.contains ·)).reverse

def lowerChar (c : Char) : Char :=
  if 'A' ≤ c ∧ c ≤ 'Z' then Char.ofNat (c.toNat + 32) else c

def isAlphaCh (c : Char) : Bool :=
  ('a' ≤ c ∧ c ≤ 'z') ∨ ('A' ≤ c ∧ c ≤ 'Z')

def isDigitCh (c : Char) : Bool := '0' ≤ c ∧ c ≤ '9'

def readNat (ds : List Char) : Nat :=
  ds.foldl (fun a c => 10 * a + (c.toNat - 48)) 0

def monthTable : List (List Char × Nat) :=
  [("january".toList, 1), ("february".toList, 2), ("march".toList, 3),
   ("april".toList, 4), ("may".toList, 5), ("june".toList, 6),
   ("july".toList, 7), ("august".toList, 8), ("september".toList, 9),
   ("october".toList, 10), ("november".toList, 11), ("december".toList, 12),
   ("jan".toList, 1), ("feb".toList, 2), ("mar".toList, 3), ("apr".toList, 4),
   ("jun".toList, 6), ("jul".toList, 7), ("aug".toList, 8), ("sep".toList, 9),
   ("oct".toList, 10), ("nov".toList, 11), ("dec".toList, 12)]

def isLeap (y : Nat) : Bool := (y % 4 = 0 ∧ y % 100 ≠ 0) ∨ y % 400 = 0

def daysInMonth (y m : Nat) : Nat :=
  if m = 2 then (if isLeap y then 29 else 28)
  else if m = 4 ∨ m = 6 ∨ m = 9 ∨ m = 11 then 30 else 31

/-- Proleptic-Gregorian day number (days since 0000-03-01). -/
def gday (y m d : Nat) : Nat :=
  let m' := (m + 9) % 12
  let y' := y - m' / 10
  365 * y' + y' / 4 - y' / 100 + y' / 400 + (m' * 306 + 5) / 10 + (d - 1)

/-- The `"Month Day, Year"` date grammar: month name, day, optional comma,
four-digit year, tolerating surrounding whitespace.  Returns the day
number, or `none` where `dateutil.parser.parse` would raise. -/
def parseHumanDate (s : List Char) : Option Nat :=
  let s1 := s.dropWhile isWS
  let mw := s1.takeWhile isAlphaCh
  let r1 := s1.dropWhile isAlphaCh
  match monthTable.lookup (mw.map lowerChar) with
  | none => none
  | some m =>
    let r2 := r1.dropWhile isWS
    let dw := r2.takeWhile isDigitCh
    let r3 := r2.dropWhile isDigitCh
    if dw = [] ∨ 2 < dw.length then none
    else
      let d := readNat dw
      let r4 :=
        match r3.dropWhile isWS with
        | ',' :: r => r.dropWhile isWS
        | r => r
      let yw := r4.takeWhile isDigitCh
      let r5 := r4.dropWhile isDigitCh
      if yw.length = 4 ∧ r5.dropWhile isWS = [] ∧ 1 ≤ d ∧ d ≤ daysInMonth (readNat yw) m
      then some (gday (readNat yw) m d)
      else none

def stripSetDate : List Char := ['d', 'a', 't', 'e', '=']

/-- `parse_date` (src/archive_bot.py:182); `none` models the uncaught
exception from `dateutil.parser.parse`. -/
def parse_date (date_string : List Char) : Option Nat :=
  parseHumanDate (pyStrip stripSetDate date_string)

def minutesPerDay : Int := 1440

def thirtyDaysMin : Int := 43200

/-- Errors the Python process can raise; nothing in the bot catches any of
them, so in the run models below they abort the run. -/
inductive PyErr where
  | parseError   -- dateutil.parser.parse on an unparsable date string
  | nameError    -- NameError: ArticleExistsConflictError is never imported
  | jsonError    -- json.loads on undecodable checkpoint text
  | keyError     -- missing dict key ('query', 'categorymembers', 'title')
deriving DecidableEq, Repr

/-- The loop of `old_page` (src/archive_bot.py:204): walk the extracted
fragments in document order; an unparsable date raises; a date strictly
before `now - 30 days` returns `True` at once. -/
def old_page_go : List (List Char) → Int → Except PyErr Bool
  | [], _ => .ok false
  | d :: ds, now =>
    match parse_date d with
    | none => .error .parseError
    | some t => if (t : Int) * minutesPerDay < now - thirtyDaysMin then .ok true
                else old_page_go ds now

/-- `old_page` (src/archive_bot.py:193).  `now` is the instant
`datetime.now()` in minutes. -/
def old_page (text : List Char) (now : Int) : Except PyErr Bool :=
  let dates := grab_template_data archiveRecName text
  if dates = [] then .ok false else old_page_go dates now

/-!
Archival mutator.  `update_template` (src/archive_bot.py:225) takes every
matched template string, escapes ONLY its pipes (`template.replace('|',
'\|')`), and uses the result as a `re.sub` PATTERN.  For the patterns so
built whose only regex metacharacters are backslash escapes and
parentheses, the pattern matches exactly the literal string obtained by
resolving the escapes and dropping the parentheses (parentheses merely
group); `patternLiteral` computes that string and `replaceAllList` then
performs Python's leftmost non-overlapping replacement.  Other
metacharacters (`*`, `+`, `[`, …) are outside this embedding; no theorem
below evaluates the mutator on a text containing them. -/

def escPipes (s : List Char) : List Char :=
  s.flatMap fun c => if c = '|' then ['\x5c', '|'] else [c]

def patternLiteral : List Char → List Char
  | [] => []
  | '\x5c' :: c :: r => c :: patternLiteral r
  | '(' :: r => patternLiteral r
  | ')' :: r => patternLiteral r
  | c :: r => c :: patternLiteral r

/-- Leftmost non-overlapping replacement of the literal `pat` by `repl`
(also the model of Python `str.replace`).  Fuel is the input length. -/
def replaceAux (pat repl : List Char) : Nat → List Char → List Char
  | 0, s => s
  | _ + 1, [] => []
  | fuel + 1, c :: r =>
    if pat.isPrefixOf (c :: r) then repl ++ replaceAux pat repl fuel (r.drop (pat.length - 1))
    else c :: replaceAux pat repl fuel r

def replaceAllList (pat repl s : List Char) : List Char :=
  if pat = [] then s else replaceAux pat repl s.length s

/-- `re.sub(pattern, repl, s)` for the pattern class `update_template`
builds (see the section comment). -/
def reSub (pat repl s : List Char) : List Char :=
  replaceAllList (patternLiteral pat) repl s

/-- The replacement text `{{Archived|date=TODAY}}`; `today` stands for
`"{0:%B} {0:%d}, {0:%Y}".format(datetime.now())`. -/
def archivedTemplate (today : List Char) : List Char :=
  "\x7b\x7bArchived|date=".toList ++ today ++ "\x7d\x7d".toList

/-- `update_template` (src/archive_bot.py:225) as a text transformer. -/
def update_template_text (text today : List Char) : List Char :=
  (parse_template archiveRecName text).foldl
    (fun nt t => reSub (escPipes t) (archivedTemplate today) nt) text

def oldCat : List Char := "Articles flagged to be archived".toList

def newCat : List Char := "Articles Archived".toList

/-- `update_category` (src/archive_bot.py:243) as a text transformer:
Python `str.replace` of the old category name by the new one, then the
page is saved. -/
def update_category_text (text : List Char) : List Char :=
  replaceAllList oldCat newCat text

/-- `move_namespace` (src/archive_bot.py:210).  Its `except` clause names
`ArticleExistsConflictError`, which is never imported anywhere in the
module; when `page.move` raises the destination-exists conflict, CPython
evaluates the `except` expression, fails to resolve the name, and raises
`NameError` — the handler body never runs.  `destExists` says whether a
page already sits at the destination title. -/
def move_namespace (destExists : Bool) : Except PyErr Unit :=
  if destExists then .error .nameError else .ok ()

/-- Outcome of `update_page` (src/archive_bot.py:251) on one page:
`savedText` is the text persisted by `update_category`'s `page.save()`
(it happens before the move), `moved` whether the namespace move
completed, `err` the uncaught exception, if any, that aborts the run. -/
structure PageOutcome where
  savedText : Option (List Char)
  moved : Bool
  err : Option PyErr
deriving DecidableEq, Repr

/-- `update_page` (src/archive_bot.py:251): evaluate `old_page`; if
eligible, rewrite the template, swap the category (persisting the text),
then move the namespace. -/
def update_page (text : List Char) (now : Int) (today : List Char)
    (destExists : Bool) : PageOutcome :=
  match old_page text now with
  | .error e => ⟨none, false, some e⟩
  | .ok false => ⟨none, false, none⟩
  | .ok true =>
    let t2 := update_category_text (update_template_text text today)
    match move_namespace destExists with
    | .error e => ⟨some t2, false, some e⟩
    | .ok _ => ⟨some t2, true, none⟩

/-!
Checkpoint store.  `update_last_page` (src/archive_bot.py:72) assigns the
dict returned by `get_revisions` to `page.text` and saves, so what lands
on `REV_PAGE` is the dict's Python `repr`: single-quoted keys and values
in insertion order `user, time, title` (double quotes when a value itself
contains a single quote; backslash escaping inside `repr` is outside this
embedding and every theorem below stays on escape-free values).
`check_last_page` (src/archive_bot.py:34) replaces every `'` by `"` and
runs `json.loads`, which raises on undecodable text; `jsonParseObj` is
that decoder restricted to the flat string-to-string objects this program
ever stores (it answers `none` exactly where the bot would die with an
uncaught exception, whether a `json` decode error or indexing a non-dict).
-/

structure Checkpoint where
  user : List Char
  time : List Char
  title : List Char
deriving DecidableEq, Repr

def sqc : Char := '\x27'

def dqc : Char := '\x22'

/-- Python `repr` of a string, for escape-free values. -/
def pyReprStr (s : List Char) : List Char :=
  if sqc ∈ s ∧ dqc ∉ s then dqc :: s ++ [dqc] else sqc :: s ++ [sqc]

/-- Python `repr` of the dict `{'user': …, 'time': …, 'title': …}`. -/
def pyReprDict (ck : Checkpoint) : List Char :=
  '\x7b' :: (pyReprStr "user".toList ++ ':' :: ' ' :: pyReprStr ck.user
    ++ ',' :: ' ' :: pyReprStr "time".toList ++ ':' :: ' ' :: pyReprStr ck.time
    ++ ',' :: ' ' :: pyReprStr "title".toList ++ ':' :: ' ' :: pyReprStr ck.title)
    ++ ['\x7d']

def isJsonWS (c : Char) : Bool := c = ' ' ∨ c = '\t' ∨ c = '\n' ∨ c = '\r'

def jws (s : List Char) : List Char := s.dropWhile isJsonWS

/-- One JSON string literal (no escape sequences, as produced here). -/
def parseJStr : List Char → Option (List Char × List Char)
  | c :: r =>
    if c = dqc then
      match r.dropWhile (· ≠ dqc) with
      | d :: rest => if d = dqc then some (r.takeWhile (· ≠ dqc), rest) else none
      | [] => none
    else none
  | [] => none

/-- Comma-separated `"key": "value"` pairs up to the closing brace. -/
def parseJPairs : Nat → List Char → Option (List (List Char × List Char) × List Char)
  | 0, _ => none
  | fuel + 1, s =>
    match parseJStr (jws s) with
    | none => none
    | some (k, r1) =>
      match jws r1 with
      | [] => none
      | a :: r2 =>
        if a = ':' then
          match parseJStr (jws r2) with
          | none => none
          | some (v, r3) =>
            match jws r3 with
            | [] => none
            | b :: r4 =>
              if b = ',' then (parseJPairs fuel r4).map fun p => ((k, v) :: p.1, p.2)
              else if b = '\x7d' then some ([(k, v)], r4)
              else none
        else none

/-- `json.loads` on the flat string-object fragment of JSON; `none` models
the uncaught exception paths of `check_last_page` (decode error, or a
non-object payload later indexed with `['title']`). -/
def jsonParseObj (s : List Char) : Option (List (List Char × List Char)) :=
  match jws s with
  | c :: r =>
    if c = '\x7b' then
      match jws r with
      | d :: r' =>
        if d = '\x7d' then if jws r' = [] then some [] else none
        else
          match parseJPairs (r.length + 1) r with
          | some (ps, rest) => if jws rest = [] then some ps else none
          | none => none
      | [] => none
    else none
  | [] => none

def quoteNorm (c : Char) : Char := if c = sqc then dqc else c

/-- The body of `check_last_page` (src/archive_bot.py:56) once the page
exists, as a function of the page text: empty text returns `""`; text
whose quote-normalised form `json.loads` cannot decode raises; a decoded
object without a `'title'` key raises `KeyError`; otherwise the title is
returned (an empty—falsy—title degrades to `""`, which is the same
value). -/
def check_last_page_text (txt : List Char) : Except PyErr (List Char) :=
  if txt = [] then .ok []
  else
    match jsonParseObj (txt.map quoteNorm) with
    | none => .error .jsonError
    | some obj =>
      match obj.lookup "title".toList with
      | none => .error .keyError
      | some t => .ok t

instance {e a : Type} [DecidableEq e] [DecidableEq a] : DecidableEq (Except e a)
  | .ok x, .ok y =>
    if h : x = y then .isTrue (by rw [h]) else .isFalse (by intro hh; cases hh; exact h rfl)
  | .ok _, .error _ => .isFalse (by intro h; cases h)
  | .error _, .ok _ => .isFalse (by intro h; cases h)
  | .error x, .error y =>
    if h : x = y then .isTrue (by rw [h]) else .isFalse (by intro hh; cases hh; exact h rfl)

/-- Result of `check_last_page` (src/archive_bot.py:34): the returned
last-title (or the uncaught exception), and the `REV_PAGE` text after the
call — the only write it ever does is creating the page empty when it is
missing. -/
structure LoadResult where
  result : Except PyErr (List Char)
  revText : List Char
deriving DecidableEq, Repr

/-- `check_last_page`, with `revPage = none` when `REV_PAGE` does not
exist and `some txt` its text otherwise. -/
def check_last_page (revPage : Option (List Char)) : LoadResult :=
  match revPage with
  | none => ⟨.ok [], []⟩
  | some txt => ⟨check_last_page_text txt, txt⟩

/-!
Revision fetch and checkpoint write.  `get_revisions`
(src/archive_bot.py:102) validates the response shape and returns either
`""` (no usable revision) or the dict `{user, time, title}`;
`update_last_page` (src/archive_bot.py:72) writes that value's text to
`REV_PAGE`. -/

structure RevInfo where
  user : List Char
  timestamp : List Char
deriving DecidableEq, Repr

structure RevPageEntry where
  missing : Bool
  revisions : Option (List RevInfo)
deriving DecidableEq, Repr

structure RevResponse where
  pages : Option (List RevPageEntry)
deriving DecidableEq, Repr

/-- `get_revisions`: `.ok none` is the `return ""` path, `.error` the
uncaught `IndexError` when `data['query']['pages']` is empty. -/
def get_revisions (page_title : List Char) (resp : RevResponse) :
    Except PyErr (Option Checkpoint) :=
  match resp.pages with
  | none => .ok none
  | some pages =>
    match pages.head? with
    | none => .error .keyError
    | some p =>
      if p.missing then .ok none
      else
        match p.revisions with
        | none => .ok none
        | some revs =>
          match revs.head? with
          | none => .error .keyError
          | some rev => .ok (some ⟨rev.user, rev.timestamp, page_title⟩)

/-- `update_last_page` as the text written to `REV_PAGE`: the Python
`repr` of the revision dict, or `""` when `get_revisions` returned `""`. -/
def update_last_page (page_title : List Char) (resp : RevResponse) :
    Except PyErr (List Char) :=
  (get_revisions page_title resp).map fun ck =>
    match ck with
    | none => []
    | some c => pyReprDict c

def REV_PAGE : List Char := "Powerpedia:ARCHIVE_BOT".toList

def PAGES_LIMIT : Nat := 20

/-!
Category pager and driver.  `get_params` (src/archive_bot.py:85) builds
the one request the run ever makes; `modify_pages`
(src/archive_bot.py:268) performs that single GET, checks the response
shape (a missing `query` or `categorymembers` key is printed and then hit
anyway by the subscription, an uncaught `KeyError`), and runs
`update_page` over the batch.  There is no continuation loop: the
response's continuation token, when the server sends one, is never read,
and the commented-out `update_last_page()` call (src/archive_bot.py:293)
means the run never writes the checkpoint.  The wiki is abstracted by
`wiki` (title to page text) and `dest` (whether the Archive-namespace
destination of a title is already occupied); `now` and `today` stand for
`datetime.now()` in minutes and its `"Month Day, Year"` rendering. -/

structure Params where
  action : List Char
  cmtitle : List Char
  list : List Char
  format : List Char
  cmcontinue : List Char
  cmlimit : Nat
deriving DecidableEq, Repr

/-- `get_params` (src/archive_bot.py:85). -/
def get_params (continue_from : List Char) : Params :=
  ⟨"query".toList, "Category:Articles flagged to be archived".toList,
   "categorymembers".toList, "json".toList, continue_from, PAGES_LIMIT⟩

structure CMQuery where
  categorymembers : Option (List (List Char))
deriving DecidableEq, Repr

structure CMResponse where
  query : Option CMQuery
  continueTok : Option (List Char)
deriving DecidableEq, Repr

/-- The per-member loop of `modify_pages`: each title is fetched and
`update_page` run on it; the first uncaught exception aborts the run,
leaving the remaining members unprocessed.  Returns the titles on which
`update_page` was entered, and the aborting error if any. -/
def run_pages (wiki : List Char → List Char) (dest : List Char → Bool)
    (now : Int) (today : List Char) :
    List (List Char) → List (List Char) × Option PyErr
  | [] => ([], none)
  | t :: ts =>
    match (update_page (wiki t) now today (dest t)).err with
    | some e => ([t], some e)
    | none =>
      let rest := run_pages wiki dest now today ts
      (t :: rest.1, rest.2)

structure ModifyOutcome where
  processed : List (List Char)
  error : Option PyErr
deriving DecidableEq, Repr

/-- `modify_pages` (src/archive_bot.py:268): one request, one batch. -/
def modify_pages (server : Params → CMResponse) (wiki : List Char → List Char)
    (dest : List Char → Bool) (now : Int) (today : List Char)
    (last_title : List Char) : ModifyOutcome :=
  match (server (get_params last_title)).query with
  | none => ⟨[], some .keyError⟩
  | some q =>
    match q.categorymembers with
    | none => ⟨[], some .keyError⟩
    | some ms =>
      let r := run_pages wiki dest now today ms
      ⟨r.1, r.2⟩

structure RunResult where
  processed : List (List Char)
  checkpointText : List Char
  error : Option PyErr
deriving DecidableEq, Repr

/-- `main` (src/archive_bot.py:295): load the checkpoint, make the single
category request, process the batch.  `checkpointText` is the text of
`REV_PAGE` when the run ends: the only write the run can make to it is
`check_last_page`'s self-healing creation of an empty page. -/
def main_run (server : Params → CMResponse) (wiki : List Char → List Char)
    (dest : List Char → Bool) (now : Int) (today : List Char)
    (revPage : Option (List Char)) : RunResult :=
  let lr := check_last_page revPage
  match lr.result with
  | .error e => ⟨[], lr.revText, some e⟩
  | .ok last =>
    let mo := modify_pages server wiki dest now today last
    ⟨mo.processed, lr.revText, mo.error⟩

/-!
Concrete inputs shared by the theorems below. -/

/-- An instant on March 1, 2023 (12:00), in minutes. -/
def nowMar1_2023 : Int := gday 2023 3 1 * 1440 + 720

def todayMar01 : List Char := "March 01, 2023".toList

def unparsableMarkerText : List Char :=
  "\x7b\x7bArchive recommendation|date=pending\x7d\x7d".toList

def eligibleMarkerText : List Char :=
  "\x7b\x7bArchive recommendation|date=January 1, 2020\x7d\x7d\n[[category:Articles flagged to be archived]]".toList

def archivedResultText : List Char :=
  "\x7b\x7bArchived|date=March 01, 2023\x7d\x7d\n[[category:Articles Archived]]".toList

def parenMarkerText : List Char :=
  "\x7b\x7bArchive recommendation|date=January 1, 2020 (old)\x7d\x7d".toList

def spanningMarkerText : List Char :=
  "\x7b\x7bArchive recommendation|date=January 1, 2020\n\x7d\x7d".toList

def simpleMarkerText : List Char :=
  "\x7b\x7bArchive recommendation|date=January 1, 2023\x7d\x7d".toList

def wiki4 : List Char → List Char :=
  fun t => if t = "A".toList then unparsableMarkerText else eligibleMarkerText

/-- C1, counterexample.  The page's only `Flagged` marker has an
unparsable date, so the claim's "no such marker" clause demands
`NotEligible`; the code instead lets `dateutil.parser.parse` raise, so the
eligibility check returns no verdict at all. -/
theorem C1_cex :
    (grab_template_data archiveRecName unparsableMarkerText).all
        (fun d => (parse_date d).isNone) = true
    ∧ old_page unparsableMarkerText nowMar1_2023 ≠ .ok false
    ∧ old_page unparsableMarkerText nowMar1_2023 ≠ .ok true := by decide

/-- C4, counterexample.  An unparsable marker date does not degrade to
`NotEligible`: `old_page` raises, and in the batch loop the raise aborts
the run — the second page is never processed, against the claim's "the
page is skipped, not aborting the batch". -/
theorem C4_cex :
    old_page unparsableMarkerText nowMar1_2023 = .error .parseError
    ∧ run_pages wiki4 (fun _ => false) nowMar1_2023 todayMar01 ["A".toList, "B".toList]
      = (["A".toList], some .parseError) := by decide

/-- C4, amended: when the first extracted `Flagged` fragment has an
unparsable date, `old_page` raises `dateutil`'s parse error, which no
caller catches. -/
theorem C4_amended : ∀ (text : List Char) (now : Int) (d : List Char),
    (grab_template_data archiveRecName text).head? = some d →
    parse_date d = none →
    old_page text now = .error .parseError := by
  intro text now d hd hp
  unfold old_page
  cases hds : grab_template_data archiveRecName text with
  | nil => rw [hds] at hd; simp at hd
  | cons d0 ds =>
    rw [hds] at hd
    simp only [List.head?_cons, Option.some.injEq] at hd
    subst hd
    simp [old_page_go, hp]

/-- C4, witness for the amended theorem. -/
theorem C4_witness : old_page unparsableMarkerText 0 = .error .parseError :=
  C4_amended unparsableMarkerText 0 "date=pending".toList (by decide) (by decide)

/-- C6, code bug.  On an eligible page whose destination title is taken,
the text mutation is saved (rewritten marker and swapped category), the
move does not happen, and the uncaught `NameError` — the `except` clause
names `ArticleExistsConflictError`, which is never imported — aborts the
run: the next page `"B"` is never processed. -/
theorem C6_bug :
    update_page eligibleMarkerText nowMar1_2023 todayMar01 true
      = ⟨some archivedResultText, false, some .nameError⟩
    ∧ run_pages (fun _ => eligibleMarkerText) (fun _ => true) nowMar1_2023 todayMar01
        ["A".toList, "B".toList] = (["A".toList], some .nameError) := by decide

/-- C8, code bug.  `update_template` escapes only pipes before using the
matched text as a `re.sub` pattern; the parentheses in this marker's date
make the pattern match `… old}}` instead of `… (old)}}`, so the
substitution misses, the text is unchanged, and re-running `Flagged`
extraction still returns the fragment. -/
theorem C8_bug :
    update_template_text parenMarkerText todayMar01 = parenMarkerText
    ∧ grab_template_data archiveRecName (update_template_text parenMarkerText todayMar01)
      = ["date=January 1, 2020 (old)".toList] := by decide

/-- C3, code bug.  Across every run — any server, any wiki contents, any
outcome — the text of `REV_PAGE` when the run ends is exactly what
`check_last_page` left at the start (the self-healing empty creation when
the page was missing, the untouched old text otherwise): the
`update_last_page()` call in `modify_pages` is commented out, so no
checkpoint is ever written. -/
theorem C3_bug : ∀ server wiki dest now today revPage,
    (main_run server wiki dest now today revPage).checkpointText = revPage.getD [] := by
  intro server wiki dest now today revPage
  cases revPage with
  | none => rfl
  | some txt =>
    simp only [main_run, check_last_page]
    cases check_last_page_text txt <;> rfl

/-- C9, counterexample.  An existing checkpoint page whose text is not
decodable JSON makes `check_last_page` raise (uncaught `json` decode
error) instead of returning "no checkpoint". -/
theorem C9_cex :
    (check_last_page (some "hello".toList)).result = .error .jsonError := by decide

/-- C9, amended: a missing checkpoint page is created empty and `""` is
returned; an empty page returns `""`; but an existing page with
undecodable (quote-normalised) text raises the JSON decode error. -/
theorem C9_amended :
    check_last_page none = ⟨.ok [], []⟩
    ∧ (∀ txt, txt ≠ [] → jsonParseObj (txt.map quoteNorm) = none →
        (check_last_page (some txt)).result = .error .jsonError)
    ∧ (check_last_page (some [])).result = .ok [] := by
  refine ⟨rfl, ?_, rfl⟩
  intro txt hne hp
  simp [check_last_page, check_last_page_text, hne, hp]

/-- C9, witness for the amended theorem. -/
theorem C9_witness : (check_last_page (some "garbage".toList)).result = .error .jsonError :=
  C9_amended.2.1 "garbage".toList (by decide) (by decide)

def ckUserOne : Checkpoint := ⟨"UserOne".toList, "T1".toList, "Main Page".toList⟩

def ckUserTwo : Checkpoint := ⟨"UserTwo".toList, "T1".toList, "Main Page".toList⟩

/-- C5, counterexample.  Two distinct checkpoint records serialize to
distinct page texts yet load to the same value — `check_last_page`
returns only the title — so `load(save(C)) = C` fails. -/
theorem C5_cex :
    ckUserOne ≠ ckUserTwo
    ∧ pyReprDict ckUserOne ≠ pyReprDict ckUserTwo
    ∧ check_last_page_text (pyReprDict ckUserOne) = .ok "Main Page".toList
    ∧ check_last_page_text (pyReprDict ckUserTwo) = .ok "Main Page".toList := by decide

/-- The date check applied inside `old_page`'s loop. -/
def dateIsOld (t : Nat) (now : Int) : Prop :=
  (t : Int) * minutesPerDay < now - thirtyDaysMin

instance (t : Nat) (now : Int) : Decidable (dateIsOld t now) := by
  unfold dateIsOld; infer_instance

theorem old_page_go_ok_true_iff (now : Int) : ∀ ds : List (List Char),
    (∀ d ∈ ds, (parse_date d).isSome) →
    (old_page_go ds now = .ok true ↔
      ∃ d ∈ ds, ∃ t, parse_date d = some t ∧ dateIsOld t now) := by
  intro ds
  induction ds with
  | nil => intro _; simp [old_page_go]
  | cons d ds ih =>
    intro h
    obtain ⟨t, ht⟩ := Option.isSome_iff_exists.mp (h d (List.mem_cons_self d ds))
    by_cases hc : (t : Int) * minutesPerDay < now - thirtyDaysMin
    · simp only [old_page_go, ht]
      rw [if_pos hc]
      simp only [true_iff, List.exists_mem_cons_iff]
      exact Or.inl ⟨t, ht, hc⟩
    · simp only [old_page_go, ht]
      rw [if_neg hc]
      rw [ih (fun x hx => h x (List.mem_cons_of_mem _ hx))]
      simp only [List.exists_mem_cons_iff]
      constructor
      · exact Or.inr
      · rintro (⟨t', ht', hc'⟩ | hd)
        · rw [ht] at ht'; cases ht'; exact absurd hc' hc
        · exact hd

/-- C1, amended: on a page all of whose extracted `Flagged` fragments
carry parsable dates, `old_page` answers `True` exactly when some
fragment's date (at its midnight) lies strictly before `now` minus 30
days, and a page with no `Flagged` fragment is `NotEligible`.  (A page
with any unparsable fragment can instead raise, see `C1_cex`.) -/
theorem C1_amended : ∀ (text : List Char) (now : Int),
    (∀ d ∈ grab_template_data archiveRecName text, (parse_date d).isSome) →
    ((old_page text now = .ok true ↔
        ∃ d ∈ grab_template_data archiveRecName text,
          ∃ t, parse_date d = some t ∧ dateIsOld t now)
      ∧ (grab_template_data archiveRecName text = [] → old_page text now = .ok false)) := by
  intro text now h
  constructor
  · unfold old_page
    by_cases hds : grab_template_data archiveRecName text = []
    · rw [if_pos hds, hds]
      simp
    · rw [if_neg hds]
      exact old_page_go_ok_true_iff now _ h
  · intro hds
    simp [old_page, hds]

/-- C1, witness: the spec's own scenario (marker of January 1, 2023
evaluated on March 1, 2023) comes out `Eligible` via the amended
theorem. -/
theorem C1_witness : old_page simpleMarkerText nowMar1_2023 = .ok true :=
  (C1_amended simpleMarkerText nowMar1_2023 (by decide)).1.mpr
    ⟨"date=January 1, 2023".toList, by decide, gday 2023 1 1, by decide, by decide⟩

theorem run_pages_complete (wiki : List Char → List Char) (dest : List Char → Bool)
    (now : Int) (today : List Char) : ∀ ms : List (List Char),
    (run_pages wiki dest now today ms).2 = none →
    (run_pages wiki dest now today ms).1 = ms := by
  intro ms
  induction ms with
  | nil => intro _; rfl
  | cons t ts ih =>
    intro h
    cases hu : (update_page (wiki t) now today (dest t)).err with
    | some e => simp [run_pages, hu] at h
    | none =>
      simp only [run_pages, hu] at h ⊢
      rw [ih h]

/-- C2, amended: a run makes exactly one `categorymembers` request, with
batch limit 20, starting from the checkpoint cursor, and hands exactly
that single batch's members (when none of them raises) to per-page
processing; no continuation request follows. -/
theorem C2_amended : ∀ (server : Params → CMResponse) (wiki : List Char → List Char)
    (dest : List Char → Bool) (now : Int) (today last : List Char)
    (ms : List (List Char)),
    (server (get_params last)).query = some ⟨some ms⟩ →
    (run_pages wiki dest now today ms).2 = none →
    (modify_pages server wiki dest now today last).processed = ms
    ∧ (get_params last).cmlimit = 20 := by
  intro server wiki dest now today last ms hq hok
  refine ⟨?_, rfl⟩
  simp only [modify_pages, hq]
  exact run_pages_complete wiki dest now today ms hok

/-- C2, witness for the amended theorem. -/
theorem C2_witness :
    (modify_pages (fun _ => ⟨some ⟨some ["A".toList, "B".toList]⟩, none⟩)
      (fun _ => []) (fun _ => false) 0 [] []).processed = ["A".toList, "B".toList]
    ∧ (get_params []).cmlimit = 20 :=
  C2_amended (fun _ => ⟨some ⟨some ["A".toList, "B".toList]⟩, none⟩)
    (fun _ => []) (fun _ => false) 0 [] [] ["A".toList, "B".toList] rfl (by decide)

def mem21 : List (List Char) := (List.range 21).map fun n => 'P' :: Nat.toDigits 10 (n + 1)

/-- A server holding 21 category members: it answers the first request
with 20 of them plus a continuation token, and would serve the last
member to whoever continued from that token. -/
def srv21 : Params → CMResponse := fun p =>
  if p.cmcontinue = [] then ⟨some ⟨some (mem21.take 20)⟩, some "tok".toList⟩
  else ⟨some ⟨some (mem21.drop 20)⟩, none⟩

/-- C2, counterexample.  Against `srv21` the run finishes without error
having processed only the first batch of 20: member `P21` exists, the
server announced a continuation token, and yet `P21` is never handed to
per-page processing. -/
theorem C2_cex :
    (main_run srv21 (fun _ => []) (fun _ => false) 0 [] none).error = none
    ∧ (main_run srv21 (fun _ => []) (fun _ => false) 0 [] none).processed = mem21.take 20
    ∧ ('P' :: Nat.toDigits 10 21) ∈ mem21
    ∧ ('P' :: Nat.toDigits 10 21) ∉ (main_run srv21 (fun _ => []) (fun _ => false) 0 [] none).processed
    ∧ (srv21 (get_params [])).continueTok = some "tok".toList := by decide

theorem splitLines_ne_nil : ∀ s : List Char, splitLines s ≠ [] := by
  intro s
  induction s with
  | nil => simp [splitLines]
  | cons c r ih =>
    by_cases hc : c = '\n'
    · simp [splitLines, hc]
    · simp only [splitLines, if_neg hc]
      cases h : splitLines r with
      | nil => simp
      | cons l ls => simp

theorem mem_splitLines_no_nl : ∀ (s l : List Char), l ∈ splitLines s → '\n' ∉ l := by
  intro s
  induction s with
  | nil =>
    intro l hl
    simp [splitLines] at hl
    subst hl; simp
  | cons c r ih =>
    intro l hl
    by_cases hc : c = '\n'
    · simp only [splitLines, if_pos hc] at hl
      rcases List.mem_cons.mp hl with rfl | hmem
      · simp
      · exact ih l hmem
    · cases h : splitLines r with
      | nil => exact absurd h (splitLines_ne_nil r)
      | cons l0 ls0 =>
        simp only [splitLines, if_neg hc, h] at hl
        rcases List.mem_cons.mp hl with rfl | hmem
        · intro hin
          rcases List.mem_cons.mp hin with h1 | h2
          · exact hc h1.symm
          · exact ih l0 (by rw [h]; exact List.mem_cons_self _ _) h2
        · exact ih l (by rw [h]; exact List.mem_cons_of_mem _ hmem)

theorem firstOpenSuffix_subset : ∀ (s t : List Char), firstOpenSuffix s = some t → ∀ c ∈ t, c ∈ s := by
  intro s
  induction s with
  | nil => intro t h; simp [firstOpenSuffix] at h
  | cons c r ih =>
    intro t h
    by_cases hc : c = '\x7b' ∧ r.head? = some '\x7b'
    · simp only [firstOpenSuffix, if_pos hc, Option.some.injEq] at h
      subst h; exact fun d hd => hd
    · simp only [firstOpenSuffix, if_neg hc] at h
      exact fun d hd => List.mem_cons_of_mem _ (ih t h d hd)

theorem dropAfterLastClose_subset : ∀ (s t : List Char), dropAfterLastClose s = some t → ∀ c ∈ t, c ∈ s := by
  intro s
  induction s with
  | nil => intro t h; simp [dropAfterLastClose] at h
  | cons c r ih =>
    intro t h
    cases hr : dropAfterLastClose r with
    | some t0 =>
      simp only [dropAfterLastClose, hr, Option.some.injEq] at h
      subst h
      intro d hd
      rcases List.mem_cons.mp hd with rfl | hmem
      · exact List.mem_cons_self _ _
      · exact List.mem_cons_of_mem _ (ih t0 hr d hmem)
    | none =>
      simp only [dropAfterLastClose, hr] at h
      by_cases hc : c = '\x7d' ∧ r.head? = some '\x7d'
      · rw [if_pos hc] at h
        cases h
        intro d hd
        rcases List.mem_cons.mp hd with rfl | hmem
        · exact List.mem_cons_self _ _
        · have : d = '\x7d' := by simpa using hmem
          subst this
          obtain ⟨r0, rest, hr0⟩ : ∃ r0 rest, r = r0 :: rest := by
            cases r with
            | nil => simp at hc
            | cons a b => exact ⟨a, b, rfl⟩
          have : r0 = '\x7d' := by rw [hr0] at hc; simpa using hc.2
          exact List.mem_cons_of_mem _ (by rw [hr0, this]; exact List.mem_cons_self _ _)
      · rw [if_neg hc] at h
        cases h

theorem subFrontAux_subset : ∀ (name : List Char) (fuel : Nat) (s : List Char),
    ∀ c ∈ subFrontAux name fuel s, c ∈ s := by
  intro name fuel
  induction fuel with
  | zero => intro s c hc; exact hc
  | succ f ih =>
    intro s c hc
    cases s with
    | nil => simp [subFrontAux] at hc
    | cons a r =>
      cases hf : frontLen name (a :: r) with
      | some k =>
        simp only [subFrontAux, hf] at hc
        exact List.drop_subset _ _ (ih _ c hc)
      | none =>
        simp only [subFrontAux, hf] at hc
        rcases List.mem_cons.mp hc with rfl | hmem
        · exact List.mem_cons_self _ _
        · exact List.mem_cons_of_mem _ (ih r c hmem)

theorem subBraces_subset_n : ∀ (n : Nat) (s : List Char), s.length ≤ n →
    ∀ c ∈ subBraces s, c ∈ s := by
  intro n
  induction n with
  | zero =>
    intro s hs c hc
    have : s = [] := List.length_eq_zero.mp (Nat.le_zero.mp hs)
    subst this
    simp [subBraces] at hc
  | succ n ih =>
    intro s hs c hc
    match s with
    | [] => simp [subBraces] at hc
    | [a] => simpa [subBraces] using hc
    | a :: b :: r =>
      by_cases hab : a = '\x7d' ∧ b = '\x7d'
      · simp only [subBraces, if_pos hab] at hc
        have hr : r.length ≤ n := by simp at hs; omega
        exact List.mem_cons_of_mem _ (List.mem_cons_of_mem _ (ih r hr c hc))
      · simp only [subBraces, if_neg hab] at hc
        rcases List.mem_cons.mp hc with rfl | hmem
        · exact List.mem_cons_self _ _
        · have hr : (b :: r).length ≤ n := by simp at hs ⊢; omega
          exact List.mem_cons_of_mem _ (ih (b :: r) hr c hmem)

theorem subBraces_subset (s : List Char) : ∀ c ∈ subBraces s, c ∈ s :=
  subBraces_subset_n s.length s (Nat.le_refl _)

theorem lineMatch_subset : ∀ (l t : List Char), lineMatch l = some t → ∀ c ∈ t, c ∈ l := by
  intro l t h
  unfold lineMatch at h
  cases hf : firstOpenSuffix l with
  | none => rw [hf] at h; cases h
  | some u =>
    rw [hf] at h
    simp only [Option.some_bind] at h
    exact fun c hc => firstOpenSuffix_subset l u hf c (dropAfterLastClose_subset u t h c hc)

theorem grab_frag_subset : ∀ (name t f : List Char),
    f = grab_template_info name t → ∀ c ∈ f, c ∈ t := by
  intro name t f hf c hc
  subst hf
  unfold grab_template_info at hc
  exact subFrontAux_subset name t.length t c (subBraces_subset _ c hc)

/-- C10: the extractor only ever matches within a single line — no
returned template match and no returned fragment contains a newline — and
a page whose only `Flagged` marker spans a line break is `NotEligible`. -/
theorem C10_theorem :
    (∀ text t : List Char, t ∈ findTemplates text → '\n' ∉ t)
    ∧ (∀ name text f : List Char, f ∈ grab_template_data name text → '\n' ∉ f)
    ∧ (∀ now : Int, old_page spanningMarkerText now = .ok false) := by
  have h1 : ∀ text t : List Char, t ∈ findTemplates text → '\n' ∉ t := by
    intro text t ht hin
    obtain ⟨l, hl, hlm⟩ := List.mem_filterMap.mp ht
    exact mem_splitLines_no_nl text l hl (lineMatch_subset l t hlm '\n' hin)
  refine ⟨h1, ?_, ?_⟩
  · intro name text f hf hin
    obtain ⟨t, ht, hsel⟩ := List.mem_filterMap.mp hf
    by_cases hs : searchFront name t = true
    · rw [if_pos hs] at hsel
      have hft := grab_frag_subset name t f (by cases hsel; rfl) '\n' hin
      exact h1 text t ht hft
    · rw [if_neg hs] at hsel
      cases hsel
  · intro now
    unfold old_page
    rw [show grab_template_data archiveRecName spanningMarkerText = [] from by decide]
    rfl

/-- C10, witness. -/
theorem C10_witness :
    ('\n' ∉ "date=January 1, 2023".toList)
    ∧ old_page spanningMarkerText 0 = .ok false :=
  ⟨C10_theorem.2.1 archiveRecName simpleMarkerText "date=January 1, 2023".toList (by decide),
   C10_theorem.2.2 0⟩

/-!
C7 setup: number of `\{{2}\s*NAME\s*\|` match positions in a text, a tiny
document grammar (lines that are exactly one marker invocation, and
marker-free lines), and its rendering. -/

def countFront (name : List Char) : List Char → Nat
  | [] => 0
  | c :: r => (if (frontLen name (c :: r)).isSome then 1 else 0) + countFront name r

def twoMarkersOneLine : List Char :=
  "\x7b\x7bArchive recommendation|date=January 1, 2020\x7d\x7d \x7b\x7bArchive recommendation|date=February 2, 2020\x7d\x7d".toList

inductive DocLine where
  | marker (arg : List Char)
  | plain (l : List Char)

def renderLine (name : List Char) : DocLine → List Char
  | .marker arg => '\x7b' :: '\x7b' :: (name ++ '|' :: (arg ++ ['\x7d', '\x7d']))
  | .plain l => l

def docArgs : List DocLine → List (List Char)
  | [] => []
  | .marker a :: ls => a :: docArgs ls
  | .plain _ :: ls => docArgs ls

def goodName (name : List Char) : Prop :=
  name ≠ [] ∧ (∀ c ∈ name.take 1, isWS c = false) ∧
    ∀ c ∈ name, c ≠ '\x7b' ∧ c ≠ '\x7d' ∧ c ≠ '|' ∧ c ≠ '\n'

instance (name : List Char) : Decidable (goodName name) := by
  unfold goodName; infer_instance

def goodLine : DocLine → Prop
  | .marker a => ∀ c ∈ a, c ≠ '\x7b' ∧ c ≠ '\x7d' ∧ c ≠ '\n'
  | .plain l => ∀ c ∈ l, c ≠ '\x7b' ∧ c ≠ '\n'

instance (l : DocLine) : Decidable (goodLine l) := by
  cases l with
  | marker a => unfold goodLine; infer_instance
  | plain p => unfold goodLine; infer_instance

theorem splitLines_of_no_nl : ∀ l : List Char, '\n' ∉ l → splitLines l = [l] := by
  intro l
  induction l with
  | nil => intro _; rfl
  | cons c r ih =>
    intro h
    have hc : c ≠ '\n' := fun hh => h (hh ▸ List.mem_cons_self _ _)
    have hr : '\n' ∉ r := fun hh => h (List.mem_cons_of_mem _ hh)
    simp only [splitLines, if_neg hc, ih hr]

theorem splitLines_append_nl : ∀ (l r : List Char), '\n' ∉ l →
    splitLines (l ++ '\n' :: r) = l :: splitLines r := by
  intro l
  induction l with
  | nil => intro r _; simp [splitLines]
  | cons c cl ih =>
    intro r h
    have hc : c ≠ '\n' := fun hh => h (hh ▸ List.mem_cons_self _ _)
    have hcl : '\n' ∉ cl := fun hh => h (List.mem_cons_of_mem _ hh)
    simp only [List.cons_append, List.append_eq, splitLines, if_neg hc, ih r hcl]

theorem splitLines_joinLines : ∀ ls : List (List Char), ls ≠ [] →
    (∀ l ∈ ls, '\n' ∉ l) → splitLines (joinLines ls) = ls := by
  intro ls
  induction ls with
  | nil => intro h; exact absurd rfl h
  | cons l ls ih =>
    intro _ hno
    cases ls with
    | nil => exact splitLines_of_no_nl l (hno l (List.mem_cons_self _ _))
    | cons l2 ls2 =>
      show splitLines (l ++ '\n' :: joinLines (l2 :: ls2)) = _
      rw [splitLines_append_nl l _ (hno l (List.mem_cons_self _ _))]
      rw [ih (by simp) (fun x hx => hno x (List.mem_cons_of_mem _ hx))]

theorem firstOpenSuffix_none : ∀ l : List Char, '\x7b' ∉ l → firstOpenSuffix l = none := by
  intro l
  induction l with
  | nil => intro _; rfl
  | cons c r ih =>
    intro h
    have hc : c ≠ '\x7b' := fun hh => h (hh ▸ List.mem_cons_self _ _)
    have hr : '\x7b' ∉ r := fun hh => h (List.mem_cons_of_mem _ hh)
    simp only [firstOpenSuffix]
    rw [if_neg (fun hh => hc hh.1)]
    exact ih hr

theorem dropAfterLastClose_end : ∀ p : List Char, '\x7d' ∉ p →
    dropAfterLastClose (p ++ ['\x7d', '\x7d']) = some (p ++ ['\x7d', '\x7d']) := by
  intro p
  induction p with
  | nil => intro _; rfl
  | cons c p ih =>
    intro h
    have hp : '\x7d' ∉ p := fun hh => h (List.mem_cons_of_mem _ hh)
    simp only [List.cons_append, List.append_eq, dropAfterLastClose, ih hp]

theorem frontLen_cons_ne (name : List Char) (c : Char) (r : List Char) (hc : c ≠ '\x7b') :
    frontLen name (c :: r) = none := by
  unfold frontLen
  split
  · rename_i r' heq
    injection heq with h1 _
    exact absurd h1 hc
  · rfl

theorem subFrontAux_no_open : ∀ (name : List Char) (fuel : Nat) (s : List Char),
    '\x7b' ∉ s → subFrontAux name fuel s = s := by
  intro name fuel
  induction fuel with
  | zero => intro s _; rfl
  | succ f ih =>
    intro s h
    cases s with
    | nil => rfl
    | cons c r =>
      have hc : c ≠ '\x7b' := fun hh => h (hh ▸ List.mem_cons_self _ _)
      have hr : '\x7b' ∉ r := fun hh => h (List.mem_cons_of_mem _ hh)
      simp only [subFrontAux, frontLen_cons_ne name c r hc]
      rw [ih r hr]

theorem subBraces_cons_ne (c : Char) (l : List Char) (hc : c ≠ '\x7d') :
    subBraces (c :: l) = c :: subBraces l := by
  cases l with
  | nil => rfl
  | cons d r =>
    show subBraces (c :: d :: r) = _
    simp only [subBraces]
    rw [if_neg (fun hh => hc hh.1)]

theorem subBraces_append_end : ∀ a : List Char, '\x7d' ∉ a →
    subBraces (a ++ ['\x7d', '\x7d']) = a := by
  intro a
  induction a with
  | nil => intro _; rfl
  | cons c a ih =>
    intro h
    have hc : c ≠ '\x7d' := fun hh => h (hh ▸ List.mem_cons_self _ _)
    have ha : '\x7d' ∉ a := fun hh => h (List.mem_cons_of_mem _ hh)
    rw [List.cons_append, subBraces_cons_ne c _ hc, ih ha]

theorem drop_append_len (l r : List Char) (n : Nat) :
    (l ++ r).drop (l.length + n) = r.drop n := by
  induction l with
  | nil => simp
  | cons c cl ih =>
    rw [List.cons_append, List.length_cons,
      show cl.length + 1 + n = (cl.length + n) + 1 from by omega,
      List.drop_succ_cons, ih]

theorem isPrefixOf_append_self (l r : List Char) : l.isPrefixOf (l ++ r) = true := by
  induction l with
  | nil => simp [List.isPrefixOf]
  | cons c cl ih => simp [List.isPrefixOf, ih]

theorem frontLen_marker (name rest : List Char) (hn : goodName name) :
    frontLen name ('\x7b' :: '\x7b' :: (name ++ '|' :: rest)) = some (name.length + 3) := by
  obtain ⟨hne, hhead, _⟩ := hn
  have htw : (name ++ '|' :: rest).takeWhile isWS = [] := by
    cases name with
    | nil => exact absurd rfl hne
    | cons n0 ntl =>
      have h0 : isWS n0 = false := hhead n0 (by simp)
      simp [List.takeWhile_cons, h0]
  have hpre : name.isPrefixOf (name ++ '|' :: rest) = true :=
    isPrefixOf_append_self name ('|' :: rest)
  have hdrop : (name ++ '|' :: rest).drop name.length = '|' :: rest := List.drop_left _ _
  simp only [frontLen, htw, List.length_nil, List.drop_zero, hpre, if_true, hdrop,
    List.takeWhile_cons, show isWS '|' = false from rfl, Bool.false_eq_true, if_false,
    List.takeWhile_nil]
  simp
  omega

theorem subFrontAux_step (name : List Char) (f : Nat) (c : Char) (r : List Char) :
    subFrontAux name (f + 1) (c :: r) =
      match frontLen name (c :: r) with
      | some k => subFrontAux name f ((c :: r).drop k)
      | none => c :: subFrontAux name f r := rfl

theorem grab_info_marker (name arg : List Char) (hn : goodName name)
    (ha : goodLine (.marker arg)) :
    grab_template_info name (renderLine name (.marker arg)) = arg := by
  have hnoOpen : '\x7b' ∉ arg ++ ['\x7d', '\x7d'] := by
    intro hm
    rcases List.mem_append.mp hm with h1 | h2
    · exact (ha _ h1).1 rfl
    · simp at h2
  have hnoClose : '\x7d' ∉ arg := fun hm => (ha _ hm).2.1 rfl
  unfold grab_template_info subFront renderLine
  simp only [List.length_cons]
  rw [subFrontAux_step, frontLen_marker name (arg ++ ['\x7d', '\x7d']) hn]
  show subBraces (subFrontAux name _ (('\x7b' :: '\x7b' :: (name ++ '|' :: (arg ++ ['\x7d', '\x7d']))).drop (name.length + 3))) = arg
  rw [show name.length + 3 = (name.length + 1) + 1 + 1 from by omega,
    List.drop_succ_cons, List.drop_succ_cons,
    show name.length + 1 = name.length + 1 from rfl,
    drop_append_len name ('|' :: (arg ++ ['\x7d', '\x7d'])) 1,
    List.drop_succ_cons, List.drop_zero]
  rw [subFrontAux_no_open _ _ _ hnoOpen, subBraces_append_end arg hnoClose]

theorem lineMatch_marker (name arg : List Char) (hn : goodName name)
    (ha : goodLine (.marker arg)) :
    lineMatch (renderLine name (.marker arg)) = some (renderLine name (.marker arg)) := by
  have hshape : '\x7b' :: '\x7b' :: (name ++ '|' :: (arg ++ ['\x7d', '\x7d']))
      = ('\x7b' :: '\x7b' :: (name ++ '|' :: arg)) ++ ['\x7d', '\x7d'] := by
    simp [List.cons_append, List.append_assoc]
  have hp : '\x7d' ∉ '\x7b' :: '\x7b' :: (name ++ '|' :: arg) := by
    intro hm
    rcases List.mem_cons.mp hm with h1 | hm1
    · exact absurd h1 (by decide)
    rcases List.mem_cons.mp hm1 with h2 | hm2
    · exact absurd h2 (by decide)
    rcases List.mem_append.mp hm2 with h3 | hm3
    · exact (hn.2.2 _ h3).2.1 rfl
    rcases List.mem_cons.mp hm3 with h4 | h5
    · exact absurd h4 (by decide)
    · exact (ha _ h5).2.1 rfl
  unfold lineMatch renderLine
  have h1 : firstOpenSuffix ('\x7b' :: '\x7b' :: (name ++ '|' :: (arg ++ ['\x7d', '\x7d'])))
      = some ('\x7b' :: '\x7b' :: (name ++ '|' :: (arg ++ ['\x7d', '\x7d']))) := by
    simp [firstOpenSuffix]
  rw [h1, Option.some_bind, hshape, dropAfterLastClose_end _ hp, ← hshape]

theorem searchFront_marker (name arg : List Char) (hn : goodName name) :
    searchFront name (renderLine name (.marker arg)) = true := by
  show searchFront name ('\x7b' :: '\x7b' :: (name ++ '|' :: (arg ++ ['\x7d', '\x7d']))) = true
  simp only [searchFront, frontLen_marker name (arg ++ ['\x7d', '\x7d']) hn, Option.isSome_some,
    Bool.true_or]

theorem renderLine_no_nl (name : List Char) (hn : goodName name) :
    ∀ l : DocLine, goodLine l → '\n' ∉ renderLine name l := by
  intro l hl
  cases l with
  | plain p => exact fun hm => (hl '\n' hm).2 rfl
  | marker a =>
    intro hm
    unfold renderLine at hm
    rcases List.mem_cons.mp hm with h1 | hm1
    · exact absurd h1 (by decide)
    rcases List.mem_cons.mp hm1 with h2 | hm2
    · exact absurd h2 (by decide)
    rcases List.mem_append.mp hm2 with h3 | hm3
    · exact (hn.2.2 _ h3).2.2.2 rfl
    rcases List.mem_cons.mp hm3 with h4 | hm4
    · exact absurd h4 (by decide)
    rcases List.mem_append.mp hm4 with h5 | h6
    · exact (hl _ h5).2.2 rfl
    · simp at h6

theorem grab_render_chain (name : List Char) (hn : goodName name) : ∀ lines : List DocLine,
    (∀ l ∈ lines, goodLine l) →
    ((lines.map (renderLine name)).filterMap lineMatch).filterMap
        (fun t => if searchFront name t then some (grab_template_info name t) else none)
      = docArgs lines := by
  intro lines
  induction lines with
  | nil => intro _; rfl
  | cons l ls ih =>
    intro h
    have hl := h l (List.mem_cons_self _ _)
    have hls := fun x hx => h x (List.mem_cons_of_mem _ hx)
    cases l with
    | plain p =>
      have hnone : lineMatch (renderLine name (.plain p)) = none := by
        show lineMatch p = none
        unfold lineMatch
        rw [firstOpenSuffix_none p (fun hm => (hl '\x7b' hm).1 rfl)]
        rfl
      simp only [List.map_cons, List.filterMap_cons, hnone, docArgs]
      exact ih hls
    | marker a =>
      simp only [List.map_cons, List.filterMap_cons, lineMatch_marker name a hn hl,
        searchFront_marker name a hn, if_true, grab_info_marker name a hn hl, docArgs]
      rw [ih hls]

/-- C7, amended: the extractor returns one fragment per marker-bearing
LINE, not per invocation — for a page whose lines are each either
brace-free or exactly one well-formed `{{NAME|arg}}` invocation, it
returns exactly the args, braces and name stripped, in document order
(`C7_cex` shows two invocations on one line merging into one fragment). -/
theorem C7_amended : ∀ (name : List Char) (lines : List DocLine),
    goodName name → (∀ l ∈ lines, goodLine l) →
    grab_template_data name (joinLines (lines.map (renderLine name))) = docArgs lines := by
  intro name lines hn hls
  cases lines with
  | nil => rfl
  | cons l ls =>
    unfold grab_template_data findTemplates
    rw [splitLines_joinLines _ (by simp)
      (by
        intro x hx
        obtain ⟨dl, hdl, rfl⟩ := List.mem_map.mp hx
        exact renderLine_no_nl name hn dl (hls dl hdl))]
    exact grab_render_chain name hn (l :: ls) hls

/-- C7, counterexample.  One line holding two `Flagged` invocations: the
text contains two `{{Archive recommendation|` match sites, yet extraction
returns a single merged fragment instead of one fragment per
invocation. -/
theorem C7_cex :
    countFront archiveRecName twoMarkersOneLine = 2
    ∧ grab_template_data archiveRecName twoMarkersOneLine
      = ["date=January 1, 2020 date=February 2, 2020".toList] := by decide

/-- C7, witness for the amended theorem: a three-line document (marker,
plain text, marker) yields exactly its two args in document order. -/
theorem C7_witness :
    grab_template_data archiveRecName
      (joinLines ([DocLine.marker "date=January 1, 2020".toList,
        DocLine.plain "some text".toList,
        DocLine.marker "date=February 2, 2020".toList].map (renderLine archiveRecName)))
      = ["date=January 1, 2020".toList, "date=February 2, 2020".toList] :=
  C7_amended archiveRecName
    [DocLine.marker "date=January 1, 2020".toList,
      DocLine.plain "some text".toList,
      DocLine.marker "date=February 2, 2020".toList]
    (by decide) (by decide)

/-- Escape-free serialized values: no quote of either kind, no backslash
(Python `repr` would escape these; escaping is outside this embedding). -/
def plainVal (s : List Char) : Prop := ∀ c ∈ s, c ≠ sqc ∧ c ≠ dqc ∧ c ≠ '\x5c'

instance (s : List Char) : Decidable (plainVal s) := by
  unfold plainVal; infer_instance

theorem map_quoteNorm_plain {s : List Char} (h : plainVal s) : s.map quoteNorm = s := by
  induction s with
  | nil => rfl
  | cons c cl ih =>
    have hc : quoteNorm c = c := by
      unfold quoteNorm
      rw [if_neg (h c (List.mem_cons_self _ _)).1]
    rw [List.map_cons, hc, ih (fun x hx => h x (List.mem_cons_of_mem _ hx))]

theorem pyReprStr_plain {s : List Char} (h : plainVal s) :
    pyReprStr s = sqc :: (s ++ [sqc]) := by
  unfold pyReprStr
  have hn : ¬(sqc ∈ s ∧ dqc ∉ s) := fun hh => (h sqc hh.1).1 rfl
  rw [if_neg hn, List.cons_append]

theorem takeWhile_append_all (p : Char → Bool) : ∀ (v r : List Char),
    (∀ c ∈ v, p c = true) → (v ++ r).takeWhile p = v ++ r.takeWhile p := by
  intro v
  induction v with
  | nil => intro r _; simp
  | cons c cl ih =>
    intro r h
    rw [List.cons_append, List.takeWhile_cons, h c (List.mem_cons_self _ _), if_pos rfl,
      ih r (fun x hx => h x (List.mem_cons_of_mem _ hx)), List.cons_append]

theorem dropWhile_append_all (p : Char → Bool) : ∀ (v r : List Char),
    (∀ c ∈ v, p c = true) → (v ++ r).dropWhile p = r.dropWhile p := by
  intro v
  induction v with
  | nil => intro r _; simp
  | cons c cl ih =>
    intro r h
    rw [List.cons_append, List.dropWhile_cons, h c (List.mem_cons_self _ _), if_pos rfl]
    exact ih r (fun x hx => h x (List.mem_cons_of_mem _ hx))

theorem parseJStr_exact (v rest : List Char) (h : ∀ c ∈ v, c ≠ dqc) :
    parseJStr (dqc :: (v ++ dqc :: rest)) = some (v, rest) := by
  have hall : ∀ c ∈ v, (decide (c ≠ dqc)) = true := fun c hc => decide_eq_true (h c hc)
  simp only [parseJStr, if_true]
  rw [dropWhile_append_all _ v (dqc :: rest) hall,
    takeWhile_append_all _ v (dqc :: rest) hall]
  simp [List.dropWhile_cons, List.takeWhile_cons]

theorem jws_cons_not (c : Char) (s : List Char) (h : isJsonWS c = false) :
    jws (c :: s) = c :: s := by
  simp [jws, List.dropWhile_cons, h]

theorem jws_cons_ws (c : Char) (s : List Char) (h : isJsonWS c = true) :
    jws (c :: s) = jws s := by
  simp [jws, List.dropWhile_cons, h]

theorem jws_dq (s : List Char) : jws (dqc :: s) = dqc :: s := jws_cons_not _ _ (by decide)

theorem jws_colon (s : List Char) : jws (':' :: s) = ':' :: s := jws_cons_not _ _ (by decide)

theorem jws_comma (s : List Char) : jws (',' :: s) = ',' :: s := jws_cons_not _ _ (by decide)

theorem jws_close (s : List Char) : jws ('\x7d' :: s) = '\x7d' :: s := jws_cons_not _ _ (by decide)

theorem jws_sp (s : List Char) : jws (' ' :: s) = jws s := jws_cons_ws _ _ (by decide)

theorem parseJPairs_step (f : Nat) (s : List Char) :
    parseJPairs (f + 1) s =
      match parseJStr (jws s) with
      | none => none
      | some (k, r1) =>
        match jws r1 with
        | [] => none
        | a :: r2 =>
          if a = ':' then
            match parseJStr (jws r2) with
            | none => none
            | some (v, r3) =>
              match jws r3 with
              | [] => none
              | b :: r4 =>
                if b = ',' then (parseJPairs f r4).map fun p => ((k, v) :: p.1, p.2)
                else if b = '\x7d' then some ([(k, v)], r4)
                else none
          else none := rfl

theorem parseJPairs_pair_comma (f : Nat) (k v rest : List Char)
    (hk : ∀ c ∈ k, c ≠ dqc) (hv : ∀ c ∈ v, c ≠ dqc) :
    parseJPairs (f + 1) (dqc :: (k ++ dqc :: ':' :: ' ' :: dqc :: (v ++ dqc :: ',' :: ' ' :: rest)))
      = (parseJPairs f (' ' :: rest)).map fun p => ((k, v) :: p.1, p.2) := by
  have e1 := parseJStr_exact k (':' :: ' ' :: dqc :: (v ++ dqc :: ',' :: ' ' :: rest)) hk
  have e2 := parseJStr_exact v (',' :: ' ' :: rest) hv
  rw [parseJPairs_step]
  simp only [jws_dq, e1, jws_colon, jws_sp, e2, jws_comma]
  simp

theorem parseJPairs_pair_last (f : Nat) (k v : List Char)
    (hk : ∀ c ∈ k, c ≠ dqc) (hv : ∀ c ∈ v, c ≠ dqc) :
    parseJPairs (f + 1) (dqc :: (k ++ dqc :: ':' :: ' ' :: dqc :: (v ++ dqc :: '\x7d' :: [])))
      = some ([(k, v)], []) := by
  have e1 := parseJStr_exact k (':' :: ' ' :: dqc :: (v ++ dqc :: '\x7d' :: [])) hk
  have e2 := parseJStr_exact v ('\x7d' :: []) hv
  rw [parseJPairs_step]
  simp only [jws_dq, e1, jws_colon, jws_sp, e2, jws_close]
  simp

theorem parseJPairs_cons_sp (f : Nat) (s : List Char) :
    parseJPairs f (' ' :: s) = parseJPairs f s := by
  cases f with
  | zero => rfl
  | succ g => rw [parseJPairs_step, parseJPairs_step, jws_sp]

theorem parseJPairs_mono : ∀ (f g : Nat) (s : List Char)
    (r : List (List Char × List Char) × List Char),
    parseJPairs f s = some r → f ≤ g → parseJPairs g s = some r := by
  intro f
  induction f with
  | zero => intro g s r h; simp [parseJPairs] at h
  | succ f ih =>
    intro g s r h hle
    obtain ⟨g', rfl⟩ : ∃ g', g = g' + 1 := ⟨g - 1, by omega⟩
    rw [parseJPairs_step] at h
    rw [parseJPairs_step]
    cases h1 : parseJStr (jws s) with
    | none => simp [h1] at h
    | some kv =>
      obtain ⟨k, r1⟩ := kv
      simp only [h1] at h ⊢
      cases h2 : jws r1 with
      | nil => simp [h2] at h
      | cons a r2 =>
        simp only [h2] at h ⊢
        by_cases ha : a = ':'
        · rw [if_pos ha] at h ⊢
          cases h3 : parseJStr (jws r2) with
          | none => simp [h3] at h
          | some vv =>
            obtain ⟨v, r3⟩ := vv
            simp only [h3] at h ⊢
            cases h4 : jws r3 with
            | nil => simp [h4] at h
            | cons b r4 =>
              simp only [h4] at h ⊢
              by_cases hb : b = ','
              · rw [if_pos hb] at h ⊢
                obtain ⟨p, hp, hpr⟩ := Option.map_eq_some'.mp h
                rw [ih g' r4 p hp (by omega), Option.map_some', hpr]
              · rw [if_neg hb] at h ⊢
                exact h
        · rw [if_neg ha] at h
          simp at h

/-- The quote-normalised checkpoint serialization, written in parse-ready
right-nested form. -/
def reprNorm (u t ti : List Char) : List Char :=
  dqc :: ("user".toList ++ dqc :: ':' :: ' ' :: dqc ::
    (u ++ dqc :: ',' :: ' ' :: dqc :: ("time".toList ++ dqc :: ':' :: ' ' :: dqc ::
      (t ++ dqc :: ',' :: ' ' :: dqc :: ("title".toList ++ dqc :: ':' :: ' ' :: dqc ::
        (ti ++ dqc :: '\x7d' :: []))))))

theorem checkpoint_load_title (u t ti : List Char) (hu : plainVal u) (ht : plainVal t)
    (hti : plainVal ti) :
    check_last_page_text (pyReprDict ⟨u, t, ti⟩) = .ok ti := by
  have hnorm : (pyReprDict ⟨u, t, ti⟩).map quoteNorm = '\x7b' :: reprNorm u t ti := by
    simp only [pyReprDict, reprNorm, pyReprStr_plain hu, pyReprStr_plain ht, pyReprStr_plain hti,
      pyReprStr_plain (show plainVal "user".toList from by decide),
      pyReprStr_plain (show plainVal "time".toList from by decide),
      pyReprStr_plain (show plainVal "title".toList from by decide),
      List.map_append, List.map_cons, List.map_nil,
      map_quoteNorm_plain hu, map_quoteNorm_plain ht, map_quoteNorm_plain hti,
      map_quoteNorm_plain (show plainVal "user".toList from by decide),
      map_quoteNorm_plain (show plainVal "time".toList from by decide),
      map_quoteNorm_plain (show plainVal "title".toList from by decide),
      show quoteNorm sqc = dqc from rfl, show quoteNorm '\x7b' = '\x7b' from rfl,
      show quoteNorm '\x7d' = '\x7d' from rfl, show quoteNorm ':' = ':' from rfl,
      show quoteNorm ' ' = ' ' from rfl, show quoteNorm ',' = ',' from rfl,
      List.append_assoc, List.cons_append, List.nil_append, List.singleton_append]
  have hne : pyReprDict ⟨u, t, ti⟩ ≠ [] := by
    simp [pyReprDict]
  have hku : ∀ c ∈ "user".toList, c ≠ dqc := by decide
  have hkt : ∀ c ∈ "time".toList, c ≠ dqc := by decide
  have hkti : ∀ c ∈ "title".toList, c ≠ dqc := by decide
  have hvu : ∀ c ∈ u, c ≠ dqc := fun c hc => (hu c hc).2.1
  have hvt : ∀ c ∈ t, c ≠ dqc := fun c hc => (ht c hc).2.1
  have hvti : ∀ c ∈ ti, c ≠ dqc := fun c hc => (hti c hc).2.1
  have h3 : parseJPairs 3 (reprNorm u t ti)
      = some ([("user".toList, u), ("time".toList, t), ("title".toList, ti)], []) := by
    unfold reprNorm
    rw [show (3 : Nat) = 2 + 1 from rfl,
      parseJPairs_pair_comma 2 "user".toList u _ hku hvu, parseJPairs_cons_sp,
      show (2 : Nat) = 1 + 1 from rfl,
      parseJPairs_pair_comma 1 "time".toList t _ hkt hvt, parseJPairs_cons_sp,
      show (1 : Nat) = 0 + 1 from rfl,
      parseJPairs_pair_last 0 "title".toList ti hkti hvti]
    simp
  have hlen : 3 ≤ (reprNorm u t ti).length + 1 := by
    simp [reprNorm]
  have hpar := parseJPairs_mono 3 ((reprNorm u t ti).length + 1) (reprNorm u t ti) _ h3 hlen
  have hobj : jsonParseObj ((pyReprDict ⟨u, t, ti⟩).map quoteNorm)
      = some [("user".toList, u), ("time".toList, t), ("title".toList, ti)] := by
    rw [hnorm]
    have j0 : jws ('\x7b' :: reprNorm u t ti) = '\x7b' :: reprNorm u t ti :=
      jws_cons_not _ _ (by decide)
    have j1 : jws (reprNorm u t ti) = reprNorm u t ti := by
      unfold reprNorm; exact jws_dq _
    simp only [jsonParseObj, j0, j1]
    rw [show reprNorm u t ti
        = dqc :: ("user".toList ++ dqc :: ':' :: ' ' :: dqc ::
          (u ++ dqc :: ',' :: ' ' :: dqc :: ("time".toList ++ dqc :: ':' :: ' ' :: dqc ::
            (t ++ dqc :: ',' :: ' ' :: dqc :: ("title".toList ++ dqc :: ':' :: ' ' :: dqc ::
              (ti ++ dqc :: '\x7d' :: [])))))) from rfl]
    simp only [show (('\x7b' : Char) = '\x7b') = True from by simp, if_true,
      show ((dqc : Char) = '\x7d') = False from by decide, if_false]
    rw [show dqc :: ("user".toList ++ dqc :: ':' :: ' ' :: dqc ::
          (u ++ dqc :: ',' :: ' ' :: dqc :: ("time".toList ++ dqc :: ':' :: ' ' :: dqc ::
            (t ++ dqc :: ',' :: ' ' :: dqc :: ("title".toList ++ dqc :: ':' :: ' ' :: dqc ::
              (ti ++ dqc :: '\x7d' :: [])))))) = reprNorm u t ti from rfl, hpar]
    simp [jws]
  unfold check_last_page_text
  rw [if_neg hne, hobj]
  simp [List.lookup, show ("title".toList == "user".toList) = false from by decide,
    show ("title".toList == "time".toList) = false from by decide,
    show ("title".toList == "title".toList) = true from by decide]

/-- C5, amended: for escape-free field values, saving the revision record
and loading it back returns the record's TITLE only (not the whole
record): `update_last_page` writes the Python `repr` of the dict, and
`check_last_page` — after normalising single quotes to double quotes —
returns just its `'title'` entry. -/
theorem C5_amended : ∀ (u t ti : List Char), plainVal u → plainVal t → plainVal ti →
    update_last_page ti ⟨some [⟨false, some [⟨u, t⟩]⟩]⟩ = .ok (pyReprDict ⟨u, t, ti⟩)
    ∧ check_last_page_text (pyReprDict ⟨u, t, ti⟩) = .ok ti := by
  intro u t ti hu ht hti
  exact ⟨rfl, checkpoint_load_title u t ti hu ht hti⟩

/-- C5, witness for the amended theorem. -/
theorem C5_witness :
    update_last_page "Main Page".toList
        ⟨some [⟨false, some [⟨"BotUser".toList, "2023-03-01T00:00:00Z".toList⟩]⟩]⟩
      = .ok (pyReprDict ⟨"BotUser".toList, "2023-03-01T00:00:00Z".toList, "Main Page".toList⟩)
    ∧ check_last_page_text
        (pyReprDict ⟨"BotUser".toList, "2023-03-01T00:00:00Z".toList, "Main Page".toList⟩)
      = .ok "Main Page".toList :=
  C5_amended "BotUser".toList "2023-03-01T00:00:00Z".toList "Main Page".toList
    (by decide) (by decide) (by decide)

/-- C3, witness: a concrete run against the 21-member server, starting
from an existing checkpoint text, ends with that checkpoint text
unchanged. -/
theorem C3_witness :
    (main_run srv21 (fun _ => []) (fun _ => false) 0 [] (some "old".toList)).checkpointText
      = "old".toList := by
  have h := C3_bug srv21 (fun _ => []) (fun _ => false) 0 [] (some "old".toList)
  simpa using h
